import Mathlib

/-!
Shallow embedding of the retrieval pipeline of the Document-Intelligent-AI
repository (directory `src/AIDocs/src`): the text chunker
(`chunking/chunker.py`), the hybrid search score fusion
(`vector_store/chroma_manager.py`), and the hybrid retriever
(`qa_pipeline/retriever.py`).

Text is modelled as `List Char`; Python float scores are modelled as `ℚ`
(the source only ever forms them by the exact operations `1 - i/n` and
weighted sums, so the rational model mirrors the formulas). Calls to the
external ChromaDB index and to the LLM query expander are modelled by
passing their replies as explicit arguments.
-/

namespace DocAI

/-- ASCII whitespace as recognized by Python `str.split()` / `str.strip()`
and by the regex class `\s` (restricted to the ASCII range). -/
def isPySpace (c : Char) : Bool :=
  c = ' ' || c = '\t' || c = '\n' || c = '\r' || c = Char.ofNat 11 || c = Char.ofNat 12

/-- Helper for `pysplit`: `cur` is the word currently being accumulated. -/
def pysplitAux (cur : List Char) : List Char → List (List Char)
  | [] => if cur = [] then [] else [cur]
  | c :: cs =>
    if isPySpace c then
      if cur = [] then pysplitAux [] cs else cur :: pysplitAux [] cs
    else pysplitAux (cur ++ [c]) cs

/-- Python `str.split()` with no argument: split on runs of whitespace,
dropping empty pieces. Used by `TextChunker.count_words` and throughout
`TextChunker.create_chunks` (chunker.py). -/
def pysplit (l : List Char) : List (List Char) :=
  pysplitAux [] l

/-- Python space-joining of a word list (chunker.py lines 74, 86, 96). -/
def joinWords : List (List Char) → List Char
  | [] => []
  | [w] => w
  | w :: ws => w ++ ' ' :: joinWords ws

/-- Python `str.strip()`: remove leading and trailing whitespace. -/
def pyStrip (l : List Char) : List Char :=
  ((l.dropWhile isPySpace).reverse.dropWhile isPySpace).reverse

/-- State of the scan that models `re.split(r'(?<=[.!?])\s+', text)`
(chunker.py line 43): `acc` holds the finished pieces, `cur` the piece
being built, `prev` the previous character (for the lookbehind), and
`inSep` whether we are inside a separator's whitespace run. -/
structure SentState where
  acc : List (List Char)
  cur : List Char
  prev : Char
  inSep : Bool

/-- One character of the sentence-splitting scan. A whitespace character
whose predecessor is `.`, `!` or `?` starts a separator; the separator
greedily consumes the whole whitespace run. -/
def sentStep (st : SentState) (c : Char) : SentState :=
  if st.inSep then
    if isPySpace c then st
    else { acc := st.acc, cur := [c], prev := c, inSep := false }
  else
    if isPySpace c && (st.prev = '.' || st.prev = '!' || st.prev = '?') then
      { acc := st.acc ++ [st.cur], cur := [], prev := c, inSep := true }
    else
      { acc := st.acc, cur := st.cur ++ [c], prev := c, inSep := false }

/-- `TextChunker.split_into_sentences` (chunker.py lines 32-44):
`re.split(r'(?<=[.!?])\s+', text)`, then strip each piece and drop
the empty ones. -/
def splitIntoSentences (text : List Char) : List (List Char) :=
  let st := text.foldl sentStep { acc := [], cur := [], prev := 'A', inSep := false }
  ((st.acc ++ [st.cur]).map pyStrip).filter (fun s => decide (s ≠ []))

/-- The three chunking settings read in `TextChunker.__init__`
(chunker.py lines 19-21). -/
structure ChunkerConfig where
  chunk_size_words : Nat
  overlap_words : Nat
  min_chunk_size : Nat

/-- A chunk dictionary as built in `TextChunker.create_chunks`
(chunker.py lines 76-81): keys `chunk_id`, `text`, `word_count`,
`metadata`. The metadata payload type `μ` is kept abstract. -/
structure Chunk (μ : Type) where
  chunk_id : Nat
  text : List Char
  word_count : Nat
  metadata : μ
deriving DecidableEq

/-- The loop state of `TextChunker.create_chunks` (chunker.py lines 63-66):
`chunks`, `current_chunk` (a list of words), `current_word_count`,
`chunk_index`. -/
structure ChunkState (μ : Type) where
  chunks : List (Chunk μ)
  current_chunk : List (List Char)
  current_word_count : Nat
  chunk_index : Nat

/-- Python `l[-k:]`: for `k = 0` this is the whole list, otherwise the
last `min(k, len(l))` elements. -/
def pyTakeLast (k : Nat) (l : List α) : List α :=
  if k = 0 then l else l.drop (l.length - k)

/-- One iteration of the sentence loop of `TextChunker.create_chunks`
(chunker.py lines 68-92): if adding the sentence would exceed
`chunk_size_words` and the buffer is non-empty, seal the buffer as a chunk
and re-seed the buffer with the last `overlap_words` words (or the whole
buffer if it is not longer than that); then append the sentence's words. -/
def chunkStep (cfg : ChunkerConfig) (meta : μ) (st : ChunkState μ) (sentence : List Char) :
    ChunkState μ :=
  let sentence_words := pysplit sentence
  let swc := sentence_words.length
  let st1 :=
    if cfg.chunk_size_words < st.current_word_count + swc ∧ st.current_chunk ≠ [] then
      let overlap_text :=
        if cfg.overlap_words < st.current_chunk.length then
          joinWords (pyTakeLast cfg.overlap_words st.current_chunk)
        else joinWords st.current_chunk
      let newcur := pysplit overlap_text
      let sealed : Chunk μ :=
        { chunk_id := st.chunk_index
          text := joinWords st.current_chunk
          word_count := st.current_word_count
          metadata := meta }
      { chunks := st.chunks ++ [sealed],
        current_chunk := newcur,
        current_word_count := newcur.length,
        chunk_index := st.chunk_index + 1 }
    else st
  { st1 with current_chunk := st1.current_chunk ++ sentence_words,
             current_word_count := st1.current_word_count + swc }

/-- The state after the sentence loop of `TextChunker.create_chunks`
has consumed all sentences of `text`. -/
def chunkLoopState (cfg : ChunkerConfig) (meta : μ) (text : List Char) : ChunkState μ :=
  (splitIntoSentences text).foldl (chunkStep cfg meta)
    { chunks := [], current_chunk := [], current_word_count := 0, chunk_index := 0 }

/-- `TextChunker.create_chunks` (chunker.py lines 46-105): early return on
blank input, sentence loop, then the final buffer is sealed as a chunk
only when it is non-empty and reaches `min_chunk_size`. -/
def createChunks (cfg : ChunkerConfig) (text : List Char) (meta : μ) : List (Chunk μ) :=
  if pyStrip text = [] then []
  else
    let st := chunkLoopState cfg meta text
    let finalChunk : Chunk μ :=
      { chunk_id := st.chunk_index
        text := joinWords st.current_chunk
        word_count := st.current_word_count
        metadata := meta }
    if st.current_chunk ≠ [] ∧ cfg.min_chunk_size ≤ st.current_word_count then
      st.chunks ++ [finalChunk]
    else st.chunks

/-- A page dictionary as consumed by `TextChunker.chunk_document_pages`
(chunker.py lines 120-130): `page_number`, `text` and `method`. -/
structure Page where
  page_number : Nat
  text : List Char
  method : List Char

/-- Document-level metadata as consumed by `TextChunker.chunk_document_pages`
(chunker.py lines 134-139); `none` models a falsy `doc_metadata`. -/
structure DocMeta where
  title : List Char
  author : List Char
  filename : List Char

/-- The per-page chunk metadata dictionary built in
`TextChunker.chunk_document_pages` (chunker.py lines 128-139): always
`page_number` and `extraction_method`, plus the document fields when
`doc_metadata` is truthy. -/
structure PageChunkMeta where
  page_number : Nat
  extraction_method : List Char
  doc_fields : Option (List Char × List Char × List Char)
deriving DecidableEq

/-- Build the chunk metadata for one page (chunker.py lines 128-139). -/
def mkPageMeta (page : Page) (doc : Option DocMeta) : PageChunkMeta :=
  { page_number := page.page_number, extraction_method := page.method,
    doc_fields := doc.map (fun d => (d.title, d.author, d.filename)) }

/-- The re-indexing loop of `TextChunker.chunk_document_pages`
(chunker.py lines 146-147): `for i, chunk in enumerate(all_chunks):
chunk['chunk_id'] = i`, started at `n`. -/
def reindexFrom (n : Nat) : List (Chunk μ) → List (Chunk μ)
  | [] => []
  | c :: cs => { c with chunk_id := n } :: reindexFrom (n + 1) cs

/-- `TextChunker.chunk_document_pages` (chunker.py lines 107-150): chunk
each non-blank page independently with its page metadata, concatenate in
page order, then re-index all chunk ids globally from 0. -/
def chunkDocumentPages (cfg : ChunkerConfig) (pages : List Page) (doc : Option DocMeta) :
    List (Chunk PageChunkMeta) :=
  let all := pages.foldl (fun acc page =>
      if pyStrip page.text = [] then acc
      else acc ++ createChunks cfg page.text (mkPageMeta page doc)) []
  reindexFrom 0 all

/-- Everything of a chunk except its id. -/
def chunkBody (c : Chunk μ) : List Char × Nat × μ :=
  (c.text, c.word_count, c.metadata)

/-- A list of words is clean when each word is non-empty and free of
whitespace; this holds for every output of `pysplit`. -/
def WordsClean (ws : List (List Char)) : Prop :=
  ∀ w ∈ ws, w ≠ [] ∧ ∀ c ∈ w, isPySpace c = false

theorem pysplitAux_clean :
    ∀ (l cur : List Char), (∀ c ∈ cur, isPySpace c = false) →
      ∀ w ∈ pysplitAux cur l, w ≠ [] ∧ ∀ c ∈ w, isPySpace c = false := by
  intro l
  induction l with
  | nil =>
    intro cur hcur w hw
    by_cases h : cur = []
    · simp [pysplitAux, h] at hw
    · simp only [pysplitAux, if_neg h, List.mem_singleton] at hw
      subst hw; exact ⟨h, hcur⟩
  | cons c cs ih =>
    intro cur hcur w hw
    by_cases hsp : isPySpace c
    · by_cases h : cur = []
      · simp only [pysplitAux, hsp, if_true, if_pos h] at hw
        exact ih [] (by simp) w hw
      · simp only [pysplitAux, hsp, if_true, if_neg h, List.mem_cons] at hw
        rcases hw with hw | hw
        · subst hw; exact ⟨h, hcur⟩
        · exact ih [] (by simp) w hw
    · simp only [pysplitAux, hsp, if_false] at hw
      refine ih (cur ++ [c]) ?_ w hw
      intro d hd
      rcases List.mem_append.mp hd with hd | hd
      · exact hcur d hd
      · simp only [List.mem_singleton] at hd
        subst hd
        simpa using hsp

theorem pysplit_words_clean (l : List Char) : WordsClean (pysplit l) :=
  fun w hw => pysplitAux_clean l [] (by simp) w hw

theorem pysplitAux_append_word :
    ∀ (w : List Char), (∀ c ∈ w, isPySpace c = false) →
      ∀ (cur rest : List Char), pysplitAux cur (w ++ rest) = pysplitAux (cur ++ w) rest := by
  intro w
  induction w with
  | nil => intro _ cur rest; simp
  | cons c w ih =>
    intro h cur rest
    have hc : isPySpace c = false := h c (by simp)
    have hw : ∀ d ∈ w, isPySpace d = false := fun d hd => h d (by simp [hd])
    simp only [List.cons_append, pysplitAux, hc, Bool.false_eq_true, if_false, List.append_eq]
    rw [ih hw (cur ++ [c]) rest]
    simp

theorem pysplitAux_space {cur : List Char} (h : cur ≠ []) {c : Char}
    (hc : isPySpace c = true) (rest : List Char) :
    pysplitAux cur (c :: rest) = cur :: pysplitAux [] rest := by
  simp [pysplitAux, hc, h]

theorem pysplit_joinWords : ∀ (ws : List (List Char)), WordsClean ws →
    pysplit (joinWords ws) = ws := by
  intro ws
  induction ws with
  | nil => intro _; rfl
  | cons w ws ih =>
    intro h
    have hw := h w (by simp)
    cases ws with
    | nil =>
      show pysplitAux [] (joinWords [w]) = [w]
      have h1 : joinWords [w] = w := rfl
      rw [h1]
      have h2 := pysplitAux_append_word w hw.2 [] []
      simp only [List.append_nil, List.nil_append] at h2
      rw [h2]
      simp [pysplitAux, hw.1]
    | cons w2 ws2 =>
      have htail : WordsClean (w2 :: ws2) := fun x hx => h x (by simp [List.mem_cons] at hx ⊢; tauto)
      show pysplitAux [] (joinWords (w :: w2 :: ws2)) = w :: w2 :: ws2
      have h1 : joinWords (w :: w2 :: ws2) = w ++ ' ' :: joinWords (w2 :: ws2) := rfl
      rw [h1]
      have h2 := pysplitAux_append_word w hw.2 [] (' ' :: joinWords (w2 :: ws2))
      simp only [List.nil_append] at h2
      rw [h2, pysplitAux_space hw.1 (by decide) (joinWords (w2 :: ws2))]
      have h3 : pysplitAux [] (joinWords (w2 :: ws2)) = w2 :: ws2 := ih htail
      rw [h3]

/-- The loop invariant of `create_chunks`: the buffer consists of clean
words, `current_word_count` counts the buffer, and every sealed chunk
already satisfies the `word_count` contract. -/
def ChunkInv (st : ChunkState μ) : Prop :=
  WordsClean st.current_chunk ∧
  st.current_word_count = st.current_chunk.length ∧
  ∀ c ∈ st.chunks, (pysplit c.text).length = c.word_count

theorem wordsClean_append {ws vs : List (List Char)} (h1 : WordsClean ws)
    (h2 : WordsClean vs) : WordsClean (ws ++ vs) := by
  intro w hw
  rcases List.mem_append.mp hw with hw | hw
  · exact h1 w hw
  · exact h2 w hw

theorem chunkStep_inv (cfg : ChunkerConfig) (meta : μ) (st : ChunkState μ)
    (s : List Char) (h : ChunkInv st) : ChunkInv (chunkStep cfg meta st s) := by
  obtain ⟨h1, h2, h3⟩ := h
  unfold chunkStep
  by_cases hc : cfg.chunk_size_words < st.current_word_count + (pysplit s).length ∧
      st.current_chunk ≠ []
  · simp only [if_pos hc]
    refine ⟨wordsClean_append (pysplit_words_clean _) (pysplit_words_clean _), ?_, ?_⟩
    · simp
    · intro c hcm
      rcases List.mem_append.mp hcm with hcm | hcm
      · exact h3 c hcm
      · simp only [List.mem_singleton] at hcm
        subst hcm
        simp only [pysplit_joinWords st.current_chunk h1]
        exact h2.symm
  · simp only [if_neg hc]
    exact ⟨wordsClean_append h1 (pysplit_words_clean _), by simp [h2], h3⟩

theorem chunkLoop_inv (cfg : ChunkerConfig) (meta : μ) :
    ∀ (sentences : List (List Char)) (st : ChunkState μ), ChunkInv st →
      ChunkInv (sentences.foldl (chunkStep cfg meta) st) := by
  intro sentences
  induction sentences with
  | nil => intro st h; exact h
  | cons s ss ih =>
    intro st h
    exact ih _ (chunkStep_inv cfg meta st s h)

theorem chunkLoopState_inv (cfg : ChunkerConfig) (meta : μ) (text : List Char) :
    ChunkInv (chunkLoopState cfg meta text) := by
  refine chunkLoop_inv cfg meta _ _ ?_
  refine ⟨?_, rfl, ?_⟩ <;> intro x hx <;> simp at hx

theorem createChunks_wc (cfg : ChunkerConfig) (text : List Char) (meta : μ) :
    ∀ c ∈ createChunks cfg text meta, (pysplit c.text).length = c.word_count := by
  intro c hc
  unfold createChunks at hc
  by_cases hb : pyStrip text = []
  · simp [hb] at hc
  · simp only [if_neg hb] at hc
    obtain ⟨h1, h2, h3⟩ := chunkLoopState_inv cfg meta text
    by_cases hf : (chunkLoopState cfg meta text).current_chunk ≠ [] ∧
        cfg.min_chunk_size ≤ (chunkLoopState cfg meta text).current_word_count
    · simp only [if_pos hf] at hc
      rcases List.mem_append.mp hc with hcm | hcm
      · exact h3 c hcm
      · simp only [List.mem_singleton] at hcm
        subst hcm
        simp only [pysplit_joinWords _ h1]
        exact h2.symm
    · simp only [if_neg hf] at hc
      exact h3 c hc

/-- Concatenating per-page chunk lists: the accumulator form of the loop in
`chunk_document_pages` equals a join over the page list. -/
theorem pages_foldl_join (cfg : ChunkerConfig) (doc : Option DocMeta) :
    ∀ (pages : List Page) (acc : List (Chunk PageChunkMeta)),
      pages.foldl (fun acc page =>
          if pyStrip page.text = [] then acc
          else acc ++ createChunks cfg page.text (mkPageMeta page doc)) acc
        = acc ++ (pages.map fun p =>
            if pyStrip p.text = [] then []
            else createChunks cfg p.text (mkPageMeta p doc)).flatten := by
  intro pages
  induction pages with
  | nil => intro acc; simp
  | cons p ps ih =>
    intro acc
    by_cases hp : pyStrip p.text = []
    · simp only [List.foldl_cons, List.map_cons, List.flatten, if_pos hp]
      rw [ih acc]
      simp
    · simp only [List.foldl_cons, List.map_cons, List.flatten, if_neg hp]
      rw [ih (acc ++ createChunks cfg p.text (mkPageMeta p doc))]
      simp

theorem reindexFrom_map_id : ∀ (n : Nat) (l : List (Chunk μ)),
    (reindexFrom n l).map (fun c => c.chunk_id) = List.range' n l.length := by
  intro n l
  induction l generalizing n with
  | nil => simp [reindexFrom]
  | cons c cs ih => simp [reindexFrom, List.range', ih]

theorem reindexFrom_map_body : ∀ (n : Nat) (l : List (Chunk μ)),
    (reindexFrom n l).map chunkBody = l.map chunkBody := by
  intro n l
  induction l generalizing n with
  | nil => simp [reindexFrom]
  | cons c cs ih => simp [reindexFrom, ih, chunkBody]

theorem reindexFrom_length : ∀ (n : Nat) (l : List (Chunk μ)),
    (reindexFrom n l).length = l.length := by
  intro n l
  induction l generalizing n with
  | nil => simp [reindexFrom]
  | cons c cs ih => simp [reindexFrom, ih]

/-- C4: for every configuration, input text and metadata, every chunk
produced by `create_chunks` — and hence every chunk produced by
`chunk_document_pages` — has `word_count` equal to the number of
whitespace-delimited tokens of its `text`: `len(chunk.text.split()) ==
chunk.word_count`, including chunks whose buffer was re-seeded with
overlap words. -/
theorem create_chunks_word_count {μ : Type} (cfg : ChunkerConfig) :
    (∀ (text : List Char) (meta : μ) (c : Chunk μ), c ∈ createChunks cfg text meta →
        (pysplit c.text).length = c.word_count) ∧
    (∀ (pages : List Page) (doc : Option DocMeta) (c : Chunk PageChunkMeta),
        c ∈ chunkDocumentPages cfg pages doc →
        (pysplit c.text).length = c.word_count) := by
  constructor
  · intro text meta c hc
    exact createChunks_wc cfg text meta c hc
  · intro pages doc c hc
    unfold chunkDocumentPages at hc
    rw [pages_foldl_join cfg doc pages []] at hc
    simp only [List.nil_append] at hc
    have hbody : chunkBody c ∈ (reindexFrom 0 ((pages.map fun p =>
        if pyStrip p.text = [] then []
        else createChunks cfg p.text (mkPageMeta p doc)).flatten)).map chunkBody :=
      List.mem_map_of_mem chunkBody hc
    rw [reindexFrom_map_body] at hbody
    rcases List.mem_map.mp hbody with ⟨c2, hc2, hbeq⟩
    rcases List.mem_flatten.mp hc2 with ⟨L, hL, hc2L⟩
    rcases List.mem_map.mp hL with ⟨p, _, hpL⟩
    have hwc : (pysplit c2.text).length = c2.word_count := by
      by_cases hp : pyStrip p.text = []
      · rw [← hpL] at hc2L; simp [hp] at hc2L
      · rw [← hpL] at hc2L
        simp only [if_neg hp] at hc2L
        exact createChunks_wc cfg p.text (mkPageMeta p doc) c2 hc2L
    have ht : c.text = c2.text ∧ c.word_count = c2.word_count := by
      unfold chunkBody at hbeq
      exact ⟨congrArg (fun q => q.1) hbeq.symm, congrArg (fun q => q.2.1) hbeq.symm⟩
    rw [ht.1, ht.2]
    exact hwc

/-- Witness for C4: the single chunk produced from the text `x y z.` with
`chunk_size_words = 10`, `overlap_words = 3`, `min_chunk_size = 1` has
`word_count = 3`, the number of its whitespace-delimited tokens. -/
theorem create_chunks_word_count_witness :
    (pysplit (Chunk.text (⟨0, ("x y z.").toList, 3, ()⟩ : Chunk Unit))).length
      = Chunk.word_count (⟨0, ("x y z.").toList, 3, ()⟩ : Chunk Unit) :=
  (create_chunks_word_count (μ := Unit) ⟨10, 3, 1⟩).1 (("x y z.").toList) ()
    ⟨0, ("x y z.").toList, 3, ()⟩ (by decide)

/-- C5: with `chunk_size_words = 10`, `overlap_words = 3`,
`min_chunk_size = 5`, an input of 15 one-word sentences each ending in
`.` produces exactly 2 chunks: the first with the first 10 words
(`word_count = 10`), the second beginning with the last 3 words of the
first followed by the remaining 5 words (`word_count = 8`, kept since
`8 ≥ 5`). -/
theorem create_chunks_scenario_fifteen :
    createChunks ⟨10, 3, 5⟩ (("a. a. a. a. a. a. a. a. a. a. a. a. a. a. a.").toList) ()
      = [⟨0, ("a. a. a. a. a. a. a. a. a. a.").toList, 10, ()⟩,
         ⟨1, ("a. a. a. a. a. a. a. a.").toList, 8, ()⟩] := by
  decide

/-- C6: at input exhaustion `create_chunks` seals the remaining non-empty
buffer as a final chunk precisely when its word count reaches
`min_chunk_size`; otherwise the buffer is discarded entirely — the chunk
list built by the loop is returned unchanged, so the short tail is never
merged into the previous chunk. -/
theorem create_chunks_tail_policy {μ : Type} (cfg : ChunkerConfig) (text : List Char)
    (meta : μ) (htext : pyStrip text ≠ []) :
    ((chunkLoopState cfg meta text).current_chunk ≠ [] ∧
        cfg.min_chunk_size ≤ (chunkLoopState cfg meta text).current_word_count →
      createChunks cfg text meta = (chunkLoopState cfg meta text).chunks ++
        [{ chunk_id := (chunkLoopState cfg meta text).chunk_index
           text := joinWords (chunkLoopState cfg meta text).current_chunk
           word_count := (chunkLoopState cfg meta text).current_word_count
           metadata := meta }]) ∧
    ((chunkLoopState cfg meta text).current_chunk = [] ∨
        (chunkLoopState cfg meta text).current_word_count < cfg.min_chunk_size →
      createChunks cfg text meta = (chunkLoopState cfg meta text).chunks) := by
  constructor
  · intro h
    unfold createChunks
    rw [if_neg htext, if_pos h]
  · intro h
    unfold createChunks
    rw [if_neg htext, if_neg ?_]
    rcases h with h | h
    · intro hcon; exact hcon.1 h
    · intro hcon; exact absurd hcon.2 (by omega)

/-- Witness for C6: with `min_chunk_size = 5`, the two-word input `a. a.`
leaves a buffer of 2 words at exhaustion, which is discarded: no chunk is
produced at all. -/
theorem create_chunks_tail_policy_witness :
    createChunks (⟨10, 3, 5⟩ : ChunkerConfig) (("a. a.").toList) () = [] := by
  have h := create_chunks_tail_policy (μ := Unit) ⟨10, 3, 5⟩ (("a. a.").toList) () (by decide)
  have h2 := h.2 (Or.inr (by decide))
  rw [h2]
  decide

/-- C7: `chunk_document_pages` chunks each page independently — the chunk
bodies are exactly the concatenation, in page order, of each page's
`create_chunks` output (so no chunk spans two pages and within-page order
is preserved) — and the returned chunk ids are exactly `0, 1, ..., n-1`. -/
theorem chunk_document_pages_reindex (cfg : ChunkerConfig) (pages : List Page)
    (doc : Option DocMeta) :
    (chunkDocumentPages cfg pages doc).map (fun c => c.chunk_id)
        = List.range (chunkDocumentPages cfg pages doc).length ∧
    (chunkDocumentPages cfg pages doc).map chunkBody
        = ((pages.map fun p =>
            if pyStrip p.text = [] then []
            else createChunks cfg p.text (mkPageMeta p doc)).flatten).map chunkBody := by
  constructor
  · unfold chunkDocumentPages
    rw [pages_foldl_join cfg doc pages []]
    simp only [List.nil_append]
    rw [reindexFrom_map_id, reindexFrom_length, List.range_eq_range']
  · unfold chunkDocumentPages
    rw [pages_foldl_join cfg doc pages []]
    simp only [List.nil_append]
    rw [reindexFrom_map_body]

/-- A search candidate dictionary: keys `id`, `text`, `metadata`,
`distance`, `similarity` (chroma_manager.py lines 147-153 and 211-216).
`none` in an `Option` field models an absent key; the metadata payload is
carried opaquely. -/
structure Cand where
  id : List Char
  text : List Char
  metadata : List Char
  distance : Option ℚ
  similarity : Option ℚ
deriving DecidableEq

/-- A raw ChromaDB query reply for a single query (the inner `[0]` lists
of `collection.query`): parallel lists of ids, documents and metadatas,
plus the distances when the reply has a `distances` key. -/
structure QueryReply where
  ids : List (List Char)
  documents : List (List Char)
  metadatas : List (List Char)
  distances : Option (List ℚ)
deriving DecidableEq

/-- Python `enumerate` starting at `n`. -/
def enumFrom (n : Nat) : List α → List (Nat × α)
  | [] => []
  | a :: as => (n, a) :: enumFrom (n + 1) as

/-- The result formatting of `ChromaManager.search` (chroma_manager.py
lines 143-156): each raw entry becomes a candidate whose `distance` and
`similarity = 1 - distance` are set only when the reply carries
distances. -/
def formatSearch (r : QueryReply) : List Cand :=
  (enumFrom 0 r.ids).map fun p =>
    { id := p.2
      text := r.documents.getD p.1 []
      metadata := r.metadatas.getD p.1 []
      distance := r.distances.map fun ds => ds.getD p.1 0
      similarity := r.distances.map fun ds => 1 - ds.getD p.1 0 }

/-- Lookup in an insertion-ordered association list (a Python dict). -/
def dictLookup (k : List Char) : List (List Char × ρ) → Option ρ
  | [] => none
  | p :: st => if p.1 = k then some p.2 else dictLookup k st

/-- Python dict assignment `d[k] = v`: replace in place if the key exists,
else append at the end (insertion order). -/
def dictSet (k : List Char) (v : ρ) : List (List Char × ρ) → List (List Char × ρ)
  | [] => [(k, v)]
  | p :: st => if p.1 = k then (k, v) :: st else p :: dictSet k v st

/-- `result_scores[doc_id]['score'] += delta` (chroma_manager.py
line 208): add to the score of an existing entry, keeping its position
and candidate. -/
def dictAddScore (k : List Char) (δ : ℚ) :
    List (List Char × (Cand × ℚ)) → List (List Char × (Cand × ℚ))
  | [] => []
  | p :: st => if p.1 = k then (p.1, (p.2.1, p.2.2 + δ)) :: st else p :: dictAddScore k δ st

/-- `semantic_score * semantic_weight` for rank `i` out of `N`
(chroma_manager.py lines 196-199): `(1 - i / N) * weight`. -/
def semScore (wS : ℚ) (N : Nat) (i : Nat) : ℚ :=
  (1 - (i : ℚ) / (N : ℚ)) * wS

/-- `keyword_score * keyword_weight` for rank `i` of the keyword id list
(chroma_manager.py lines 205-208). -/
def kwScore (wK : ℚ) (kw : QueryReply) (i : Nat) : ℚ :=
  (1 - (i : ℚ) / (kw.ids.length : ℚ)) * wK

/-- The fresh candidate dictionary built in the keyword branch of
`hybrid_search` (chroma_manager.py lines 210-216): it sets `distance`
(when the reply has distances) but never `similarity`. -/
def kwCand (kw : QueryReply) (i : Nat) (id : List Char) : Cand :=
  { id := id
    text := kw.documents.getD i []
    metadata := kw.metadatas.getD i []
    distance := kw.distances.map fun ds => ds.getD i 0
    similarity := none }

/-- The semantic scoring pass of `ChromaManager.hybrid_search`
(chroma_manager.py lines 190-200): for the candidate at 0-based rank `i`
of the semantic list, store score `(1 - i / N) * semantic_weight`. -/
def semanticPass (wS : ℚ) (sem : List Cand) : List (List Char × (Cand × ℚ)) :=
  (enumFrom 0 sem).foldl (fun st p =>
    dictSet p.2.id (p.2, semScore wS sem.length p.1) st) []

/-- The keyword scoring pass of `ChromaManager.hybrid_search`
(chroma_manager.py lines 202-218): the candidate at 0-based rank `i` of
the keyword id list contributes `(1 - i / N) * keyword_weight`, added to
an existing entry or stored on a fresh candidate that carries `distance`
but no `similarity`. -/
def keywordPass (wK : ℚ) (kw : QueryReply)
    (st0 : List (List Char × (Cand × ℚ))) : List (List Char × (Cand × ℚ)) :=
  if kw.ids ≠ [] then
    (enumFrom 0 kw.ids).foldl (fun st p =>
      match dictLookup p.2 st with
      | some _ => dictAddScore p.2 (kwScore wK kw p.1) st
      | none => st ++ [(p.2, (kwCand kw p.1 p.2, kwScore wK kw p.1))]) st0
  else st0

/-- The full `result_scores` dict of `ChromaManager.hybrid_search`. -/
def hybridScores (wS wK : ℚ) (sem : List Cand) (kw : QueryReply) :
    List (List Char × (Cand × ℚ)) :=
  keywordPass wK kw (semanticPass wS sem)

/-- Stable insertion for a descending sort: `x` is placed before the first
element whose key is not greater, so earlier input wins ties — the
behavior of Python `sorted(..., reverse=True)`. -/
def insertByKeyDesc (key : α → ℚ) (x : α) : List α → List α
  | [] => [x]
  | y :: ys => if key x < key y then y :: insertByKeyDesc key x ys else x :: y :: ys

/-- Stable descending sort by a rational key. -/
def sortByKeyDesc (key : α → ℚ) (l : List α) : List α :=
  l.foldr (insertByKeyDesc key) []

/-- `ChromaManager.hybrid_search` (chroma_manager.py lines 158-231) given
the two external replies: format the semantic reply as `search` does,
build the fused `result_scores`, sort its values by combined score
descending (stable), truncate to `n_results` and return the bare
candidates — the combined score is discarded. -/
def hybridSearch (n : Nat) (wS wK : ℚ) (semRaw kw : QueryReply) : List Cand :=
  let semantic_results := formatSearch semRaw
  let scores := hybridScores wS wK semantic_results kw
  ((sortByKeyDesc (fun p => p.2) (scores.map fun p => p.2)).take n).map fun p => p.1

/-- The dedup fingerprint: the first 100 characters of the candidate text
(retriever.py lines 50-51). -/
def fingerprint (c : Cand) : List Char :=
  c.text.take 100

/-- The loop of `HybridRetriever.deduplicate_results` (retriever.py
lines 45-60): keep a candidate only when its fingerprint was not seen
before. -/
def dedupGo (seen : List (List Char)) : List Cand → List Cand
  | [] => []
  | r :: rs =>
    if fingerprint r ∈ seen then dedupGo seen rs
    else r :: dedupGo (fingerprint r :: seen) rs

/-- `HybridRetriever.deduplicate_results` (retriever.py lines 35-60). -/
def deduplicateResults (results : List Cand) : List Cand :=
  dedupGo [] results

/-- Modelled from the spec's words for comparison: keep, in input order,
exactly the first candidate seen for each distinct 100-character text
prefix. -/
def dedupeFirstOccurrence : List Cand → List Cand
  | [] => []
  | r :: rs =>
    r :: dedupeFirstOccurrence (rs.filter fun s => decide (fingerprint s ≠ fingerprint r))
termination_by l => l.length
decreasing_by
  simp only [List.length_cons]
  exact Nat.lt_succ_of_le (List.length_filter_le _ rs)

/-- `HybridRetriever.filter_by_threshold` (retriever.py lines 62-77):
keep candidates with `r.get('similarity', 0) >= similarity_threshold`. -/
def filterByThreshold (τ : ℚ) (results : List Cand) : List Cand :=
  results.filter fun r => decide (τ ≤ r.similarity.getD 0)

/-- The ranking key of the final sort in `retrieve_with_expansion`
(retriever.py line 120): `x.get('similarity', 0)`. -/
def simKey (r : Cand) : ℚ :=
  r.similarity.getD 0

/-- Lines 111-122 of retriever.py: deduplicate, filter by threshold, sort
by similarity descending (stable) and truncate to `top_k`. -/
def postProcess (k : Nat) (τ : ℚ) (all : List Cand) : List Cand :=
  (sortByKeyDesc simKey (filterByThreshold τ (deduplicateResults all))).take k

/-- The variant fan-out of `HybridRetriever.retrieve_with_expansion`
(retriever.py lines 96-109) in hybrid mode: concatenate each variant's
`hybrid_search` output, given each variant's pair of external replies
(semantic, keyword). -/
def allResults (k : Nat) (wS wK : ℚ) (replies : List (QueryReply × QueryReply)) : List Cand :=
  replies.foldl (fun acc p => acc ++ hybridSearch k wS wK p.1 p.2) []

/-- `HybridRetriever.retrieve_with_expansion` = `retrieve` (retriever.py
lines 79-138) in hybrid mode, with the external searches of the query
variants given as replies. -/
def retrieveWithExpansion (k : Nat) (τ wS wK : ℚ)
    (replies : List (QueryReply × QueryReply)) : List Cand :=
  postProcess k τ (allResults k wS wK replies)

/-- The variant loop of `retrieve_with_expansion` when a search may raise:
the Python `for` aborts at the first raising call, so the first error
propagates and all earlier extends are discarded. -/
def gatherResults : List (Except ε (List Cand)) → Except ε (List Cand)
  | [] => Except.ok []
  | Except.error e :: _ => Except.error e
  | Except.ok l :: rest =>
    match gatherResults rest with
    | Except.error e => Except.error e
    | Except.ok ls => Except.ok (l ++ ls)

/-- `retrieve_with_expansion` with fallible per-variant searches: there is
no try/except around the loop body (retriever.py lines 96-109), so an
exception in any variant's search escapes the whole call. -/
def retrieveFromOutcomes (k : Nat) (τ : ℚ)
    (outcomes : List (Except ε (List Cand))) : Except ε (List Cand) :=
  match gatherResults outcomes with
  | Except.error e => Except.error e
  | Except.ok all => Except.ok (postProcess k τ all)

/-- Index of the first element satisfying `p`. -/
def idxOf? (p : α → Bool) : List α → Option Nat
  | [] => none
  | a :: as => if p a then some 0 else (idxOf? p as).map (· + 1)

/-- The rank-normalized score `1 - i/N` an id receives from a ranked id
list (0 when absent), as in chroma_manager.py lines 196 and 205. -/
def rankScore (ids : List (List Char)) (id : List Char) : ℚ :=
  match idxOf? (fun x => x == id) ids with
  | some i => 1 - (i : ℚ) / (ids.length : ℚ)
  | none => 0

/-- The combined fused score an id holds in a `result_scores` dict
(0 when absent). -/
def scoreOf (st : List (List Char × (Cand × ℚ))) (id : List Char) : ℚ :=
  match dictLookup id st with
  | some p => p.2
  | none => 0

/-- Modelled from the spec's words for comparison: the cross-variant
additive fused score of an id — the sum over every variant's semantic and
keyword lists of that list's rank-normalized score times its weight. -/
def specCrossVariantScore (wS wK : ℚ) (replies : List (QueryReply × QueryReply))
    (id : List Char) : ℚ :=
  (replies.map fun p =>
    rankScore ((formatSearch p.1).map Cand.id) id * wS + rankScore p.2.ids id * wK).sum

theorem dedupGo_congr_seen : ∀ (rs : List Cand) (s1 s2 : List (List Char)),
    (∀ fp, fp ∈ s1 ↔ fp ∈ s2) → dedupGo s1 rs = dedupGo s2 rs := by
  intro rs
  induction rs with
  | nil => intro s1 s2 _; rfl
  | cons r rs ih =>
    intro s1 s2 h
    by_cases hm : fingerprint r ∈ s1
    · simp only [dedupGo, if_pos hm, if_pos ((h _).mp hm)]
      exact ih s1 s2 h
    · have hm2 : fingerprint r ∉ s2 := fun hx => hm ((h _).mpr hx)
      simp only [dedupGo, if_neg hm, if_neg hm2]
      refine congrArg _ (ih _ _ ?_)
      intro fp
      simp only [List.mem_cons]
      constructor <;> intro hx <;> rcases hx with hx | hx
      · exact Or.inl hx
      · exact Or.inr ((h fp).mp hx)
      · exact Or.inl hx
      · exact Or.inr ((h fp).mpr hx)

theorem dedupGo_filter : ∀ (rs : List Cand) (seen : List (List Char)) (f0 : List Char),
    dedupGo (f0 :: seen) rs = dedupGo seen (rs.filter fun s => decide (fingerprint s ≠ f0)) := by
  intro rs
  induction rs with
  | nil => intro seen f0; rfl
  | cons r rs ih =>
    intro seen f0
    by_cases he : fingerprint r = f0
    · have hf : decide (fingerprint r ≠ f0) = false := by simp [he]
      have hmem : fingerprint r ∈ f0 :: seen := by simp [he]
      simp only [dedupGo, List.filter_cons, hf, if_pos hmem, Bool.false_eq_true, if_false]
      exact ih seen f0
    · have hf : decide (fingerprint r ≠ f0) = true := by simp [he]
      simp only [List.filter_cons, hf, if_true]
      by_cases hm : fingerprint r ∈ seen
      · have hm1 : fingerprint r ∈ f0 :: seen := by simp [hm]
        simp only [dedupGo, if_pos hm1, if_pos hm]
        exact ih seen f0
      · have hm1 : fingerprint r ∉ f0 :: seen := by simp [he, hm]
        simp only [dedupGo, if_neg hm1, if_neg hm]
        refine congrArg _ ?_
        have hswap := dedupGo_congr_seen rs (fingerprint r :: f0 :: seen)
          (f0 :: fingerprint r :: seen) (by intro fp; simp only [List.mem_cons]; tauto)
        rw [hswap]
        exact ih (fingerprint r :: seen) f0

theorem deduplicateResults_eq_spec : ∀ (rs : List Cand),
    deduplicateResults rs = dedupeFirstOccurrence rs := by
  have key : ∀ (n : Nat) (rs : List Cand), rs.length ≤ n →
      deduplicateResults rs = dedupeFirstOccurrence rs := by
    intro n
    induction n with
    | zero =>
      intro rs h
      have hrs : rs = [] := List.eq_nil_of_length_eq_zero (Nat.le_zero.mp h)
      subst hrs
      rw [dedupeFirstOccurrence]
      rfl
    | succ n ih =>
      intro rs h
      cases rs with
      | nil =>
        rw [dedupeFirstOccurrence]
        rfl
      | cons r rs =>
        show dedupGo [] (r :: rs) = dedupeFirstOccurrence (r :: rs)
        have hm : fingerprint r ∉ ([] : List (List Char)) := by simp
        simp only [dedupGo, if_neg hm]
        rw [dedupGo_filter rs [] (fingerprint r)]
        rw [dedupeFirstOccurrence]
        refine congrArg _ ?_
        have hlen : (rs.filter fun s => decide (fingerprint s ≠ fingerprint r)).length ≤ n :=
          le_trans (List.length_filter_le _ rs) (by simpa using h)
        exact ih _ hlen
  intro rs
  exact key rs.length rs le_rfl

theorem dedupGo_not_seen : ∀ (rs : List Cand) (seen : List (List Char)) (c : Cand),
    c ∈ dedupGo seen rs → fingerprint c ∉ seen := by
  intro rs
  induction rs with
  | nil => intro seen c h; simp [dedupGo] at h
  | cons r rs ih =>
    intro seen c h
    by_cases hm : fingerprint r ∈ seen
    · simp only [dedupGo, if_pos hm] at h
      exact ih seen c h
    · simp only [dedupGo, if_neg hm, List.mem_cons] at h
      rcases h with h | h
      · subst h; exact hm
      · have := ih _ c h
        intro hx
        exact this (by simp [hx])

theorem dedupGo_subset : ∀ (rs : List Cand) (seen : List (List Char)) (c : Cand),
    c ∈ dedupGo seen rs → c ∈ rs := by
  intro rs
  induction rs with
  | nil => intro seen c h; simp [dedupGo] at h
  | cons r rs ih =>
    intro seen c h
    by_cases hm : fingerprint r ∈ seen
    · simp only [dedupGo, if_pos hm] at h
      exact List.mem_cons_of_mem r (ih seen c h)
    · simp only [dedupGo, if_neg hm, List.mem_cons] at h
      rcases h with h | h
      · exact h ▸ List.mem_cons_self r rs
      · exact List.mem_cons_of_mem r (ih _ c h)

theorem dedupGo_fp_nodup : ∀ (rs : List Cand) (seen : List (List Char)),
    ((dedupGo seen rs).map fingerprint).Nodup := by
  intro rs
  induction rs with
  | nil => intro seen; simp [dedupGo]
  | cons r rs ih =>
    intro seen
    by_cases hm : fingerprint r ∈ seen
    · simp only [dedupGo, if_pos hm]
      exact ih seen
    · simp only [dedupGo, if_neg hm, List.map_cons, List.nodup_cons]
      refine ⟨?_, ih _⟩
      intro hx
      rcases List.mem_map.mp hx with ⟨c, hc, hfc⟩
      exact dedupGo_not_seen rs _ c hc (by simp [hfc])

theorem dedupGo_id_of_nodup : ∀ (rs : List Cand) (seen : List (List Char)),
    (rs.map fingerprint).Nodup → (∀ c ∈ rs, fingerprint c ∉ seen) →
    dedupGo seen rs = rs := by
  intro rs
  induction rs with
  | nil => intro seen _ _; rfl
  | cons r rs ih =>
    intro seen hnd hdis
    have hm : fingerprint r ∉ seen := hdis r (List.mem_cons_self r rs)
    simp only [dedupGo, if_neg hm]
    refine congrArg _ (ih _ ?_ ?_)
    · exact (List.nodup_cons.mp (by simpa using hnd)).2
    · intro c hc
      have h1 : fingerprint c ≠ fingerprint r := by
        intro he
        have : fingerprint r ∈ rs.map fingerprint := he ▸ List.mem_map_of_mem fingerprint hc
        exact (List.nodup_cons.mp (by simpa using hnd)).1 this
      intro hx
      rcases List.mem_cons.mp hx with hx | hx
      · exact h1 hx
      · exact hdis c (List.mem_cons_of_mem r hc) hx

theorem dedupGo_length_le : ∀ (rs : List Cand) (seen : List (List Char)),
    (dedupGo seen rs).length ≤ rs.length := by
  intro rs
  induction rs with
  | nil => intro seen; simp [dedupGo]
  | cons r rs ih =>
    intro seen
    by_cases hm : fingerprint r ∈ seen
    · simp only [dedupGo, if_pos hm]
      exact le_trans (ih seen) (Nat.le_succ _)
    · simp only [dedupGo, if_neg hm, List.length_cons]
      exact Nat.succ_le_succ (ih _)

/-- C8: `deduplicate_results` keeps, in input order, exactly the first
candidate seen for each distinct 100-character text prefix (it equals the
first-occurrence specification), and consequently it is idempotent and
never lengthens the list. -/
theorem deduplicate_results_first_per_fingerprint (X : List Cand) :
    deduplicateResults X = dedupeFirstOccurrence X ∧
    deduplicateResults (deduplicateResults X) = deduplicateResults X ∧
    (deduplicateResults X).length ≤ X.length := by
  refine ⟨deduplicateResults_eq_spec X, ?_, dedupGo_length_le X []⟩
  exact dedupGo_id_of_nodup (deduplicateResults X) [] (dedupGo_fp_nodup X [])
    (by intro c _; simp)

theorem mem_insertByKeyDesc (key : α → ℚ) (x c : α) :
    ∀ (l : List α), c ∈ insertByKeyDesc key x l ↔ c = x ∨ c ∈ l := by
  intro l
  induction l with
  | nil => simp [insertByKeyDesc]
  | cons y ys ih =>
    by_cases h : key x < key y
    · simp only [insertByKeyDesc, if_pos h, List.mem_cons, ih]
      tauto
    · simp only [insertByKeyDesc, if_neg h, List.mem_cons]

theorem mem_sortByKeyDesc (key : α → ℚ) (c : α) :
    ∀ (l : List α), c ∈ sortByKeyDesc key l ↔ c ∈ l := by
  intro l
  induction l with
  | nil => simp [sortByKeyDesc]
  | cons a l ih =>
    show c ∈ insertByKeyDesc key a (sortByKeyDesc key l) ↔ _
    rw [mem_insertByKeyDesc, ih]
    simp

theorem mem_postProcess (k : Nat) (τ : ℚ) (all : List Cand) (c : Cand)
    (h : c ∈ postProcess k τ all) :
    c ∈ deduplicateResults all ∧ τ ≤ simKey c := by
  unfold postProcess at h
  have h1 : c ∈ sortByKeyDesc simKey (filterByThreshold τ (deduplicateResults all)) :=
    (List.take_sublist k _).subset h
  have h2 : c ∈ filterByThreshold τ (deduplicateResults all) :=
    (mem_sortByKeyDesc simKey c _).mp h1
  unfold filterByThreshold at h2
  have h3 := List.mem_filter.mp h2
  exact ⟨h3.1, by simpa [simKey] using h3.2⟩

theorem foldl_append_flatten (f : α → List β) :
    ∀ (l : List α) (acc : List β),
      l.foldl (fun a x => a ++ f x) acc = acc ++ (l.map f).flatten := by
  intro l
  induction l with
  | nil => intro acc; simp
  | cons x l ih =>
    intro acc
    simp only [List.foldl_cons, List.map_cons, List.flatten_cons]
    rw [ih (acc ++ f x)]
    simp

theorem allResults_eq_flatten (k : Nat) (wS wK : ℚ)
    (replies : List (QueryReply × QueryReply)) :
    allResults k wS wK replies
      = (replies.map fun p => hybridSearch k wS wK p.1 p.2).flatten := by
  unfold allResults
  rw [foldl_append_flatten (fun p => hybridSearch k wS wK p.1 p.2) replies []]
  simp

theorem mem_dictSet : ∀ (st : List (List Char × ρ)) (k : List Char) (v : ρ) (q : List Char × ρ),
    q ∈ dictSet k v st → q = (k, v) ∨ q ∈ st := by
  intro st
  induction st with
  | nil => intro k v q h; simp [dictSet] at h; exact Or.inl h
  | cons p st ih =>
    intro k v q h
    by_cases hp : p.1 = k
    · simp only [dictSet, if_pos hp, List.mem_cons] at h
      rcases h with h | h
      · exact Or.inl h
      · exact Or.inr (List.mem_cons_of_mem p h)
    · simp only [dictSet, if_neg hp, List.mem_cons] at h
      rcases h with h | h
      · exact Or.inr (h ▸ List.mem_cons_self p st)
      · rcases ih k v q h with h2 | h2
        · exact Or.inl h2
        · exact Or.inr (List.mem_cons_of_mem p h2)

theorem dictAddScore_cands (Q : Cand → Prop) :
    ∀ (st : List (List Char × (Cand × ℚ))) (k : List Char) (δ : ℚ),
      (∀ p ∈ st, Q p.2.1) → ∀ q ∈ dictAddScore k δ st, Q q.2.1 := by
  intro st
  induction st with
  | nil => intro k δ _ q hq; simp [dictAddScore] at hq
  | cons p st ih =>
    intro k δ hst q hq
    by_cases hp : p.1 = k
    · simp only [dictAddScore, if_pos hp, List.mem_cons] at hq
      rcases hq with hq | hq
      · subst hq; exact hst p (List.mem_cons_self p st)
      · exact hst q (List.mem_cons_of_mem p hq)
    · simp only [dictAddScore, if_neg hp, List.mem_cons] at hq
      rcases hq with hq | hq
      · exact hq ▸ hst p (List.mem_cons_self p st)
      · exact ih k δ (fun r hr => hst r (List.mem_cons_of_mem p hr)) q hq

theorem foldl_invariant {σ : Type u1} {α : Type u2} (f : σ → α → σ) (P : σ → Prop) :
    ∀ (l : List α) (s : σ), P s → (∀ s2 a, a ∈ l → P s2 → P (f s2 a)) → P (l.foldl f s) := by
  intro l
  induction l with
  | nil => intro s hs _; exact hs
  | cons a l ih =>
    intro s hs hstep
    exact ih (f s a) (hstep s a (List.mem_cons_self a l) hs)
      (fun s2 b hb => hstep s2 b (List.mem_cons_of_mem a hb))

theorem enumFrom_mem_snd : ∀ (l : List α) (n : Nat) (p : Nat × α),
    p ∈ enumFrom n l → p.2 ∈ l := by
  intro l
  induction l with
  | nil => intro n p h; simp [enumFrom] at h
  | cons a l ih =>
    intro n p h
    simp only [enumFrom, List.mem_cons] at h
    rcases h with h | h
    · subst h; exact List.mem_cons_self a l
    · exact List.mem_cons_of_mem a (ih (n + 1) p h)

theorem semanticPass_cands (wS : ℚ) (sem : List Cand) :
    ∀ p ∈ semanticPass wS sem, p.2.1 ∈ sem := by
  unfold semanticPass
  refine foldl_invariant _
    (fun st : List (List Char × (Cand × ℚ)) => ∀ p ∈ st, p.2.1 ∈ sem) (enumFrom 0 sem) []
    (by intro p hp; simp at hp) ?_
  intro st pr hpr hst q hq
  rcases mem_dictSet st pr.2.id (pr.2, semScore wS sem.length pr.1) q hq with h | h
  · rw [h]
    exact enumFrom_mem_snd sem 0 pr hpr
  · exact hst q h

theorem keywordPass_cands (wK : ℚ) (kw : QueryReply)
    (st0 : List (List Char × (Cand × ℚ))) (Q : Cand → Prop)
    (hst0 : ∀ p ∈ st0, Q p.2.1) (hnone : ∀ c : Cand, c.similarity = none → Q c) :
    ∀ p ∈ keywordPass wK kw st0, Q p.2.1 := by
  unfold keywordPass
  by_cases hids : kw.ids ≠ []
  · rw [if_pos hids]
    refine foldl_invariant _
      (fun st : List (List Char × (Cand × ℚ)) => ∀ p ∈ st, Q p.2.1) (enumFrom 0 kw.ids) st0 hst0 ?_
    intro st pr hpr hst q hq
    revert hq
    cases hdl : dictLookup pr.2 st with
    | some v =>
      intro hq
      exact dictAddScore_cands Q st pr.2 (kwScore wK kw pr.1) hst q hq
    | none =>
      intro hq
      rcases List.mem_append.mp hq with hq | hq
      · exact hst q hq
      · simp only [List.mem_singleton] at hq
        subst hq
        exact hnone _ rfl
  · rw [if_neg hids]
    exact hst0

theorem mem_hybridSearch (n : Nat) (wS wK : ℚ) (semRaw kw : QueryReply) (c : Cand)
    (h : c ∈ hybridSearch n wS wK semRaw kw) :
    ∃ p ∈ hybridScores wS wK (formatSearch semRaw) kw, c = p.2.1 := by
  unfold hybridSearch at h
  rcases List.mem_map.mp h with ⟨q, hq, hqc⟩
  have hq1 : q ∈ sortByKeyDesc (fun p => p.2)
      ((hybridScores wS wK (formatSearch semRaw) kw).map fun p => p.2) :=
    (List.take_sublist n _).subset hq
  have hq2 : q ∈ (hybridScores wS wK (formatSearch semRaw) kw).map fun p => p.2 :=
    (mem_sortByKeyDesc _ q _).mp hq1
  rcases List.mem_map.mp hq2 with ⟨p, hp, hpq⟩
  refine ⟨p, hp, ?_⟩
  rw [← hqc, ← hpq]

/-- C10: a candidate record lacking a `similarity` key is treated as
similarity 0 by `filter_by_threshold` and is excluded whenever
`similarity_threshold > 0` — in particular it never appears in
`retrieve`'s output — and every candidate of `hybrid_search` either comes
from the semantic `search` formatting or was produced by the keyword
branch, which leaves `similarity` unset. -/
theorem missing_similarity_excluded (τ : ℚ) (hτ : 0 < τ) :
    (∀ (rs : List Cand) (r : Cand), r.similarity = none → r ∉ filterByThreshold τ rs) ∧
    (∀ (k : Nat) (wS wK : ℚ) (replies : List (QueryReply × QueryReply)) (c : Cand),
        c ∈ retrieveWithExpansion k τ wS wK replies → c.similarity ≠ none) ∧
    (∀ (n : Nat) (wS wK : ℚ) (semRaw kw : QueryReply) (c : Cand),
        c ∈ hybridSearch n wS wK semRaw kw →
          c ∈ formatSearch semRaw ∨ c.similarity = none) := by
  refine ⟨?_, ?_, ?_⟩
  · intro rs r hnone hmem
    unfold filterByThreshold at hmem
    have h2 := List.mem_filter.mp hmem
    have h3 : τ ≤ r.similarity.getD 0 := by simpa using h2.2
    rw [hnone] at h3
    simp only [Option.getD_none] at h3
    linarith
  · intro k wS wK replies c h hnone
    unfold retrieveWithExpansion at h
    have h2 := (mem_postProcess k τ _ c h).2
    rw [simKey, hnone] at h2
    simp only [Option.getD_none] at h2
    linarith
  · intro n wS wK semRaw kw c h
    rcases mem_hybridSearch n wS wK semRaw kw c h with ⟨p, hp, hc⟩
    have hq := keywordPass_cands wK kw (semanticPass wS (formatSearch semRaw))
      (fun cand => cand ∈ formatSearch semRaw ∨ cand.similarity = none)
      (fun q hq => Or.inl (semanticPass_cands wS _ q hq))
      (fun cand hcand => Or.inr hcand) p hp
    rw [hc]
    exact hq

/-- A keyword-only candidate used by the C10 witness: `distance` is set
but `similarity` is absent. -/
def candNoSim : Cand :=
  { id := ("N").toList, text := ("Y").toList, metadata := [],
    distance := some (1/2), similarity := none }

/-- Witness for C10: with threshold `3/10 > 0`, a candidate without a
similarity field is dropped by `filter_by_threshold`. -/
theorem missing_similarity_excluded_witness :
    candNoSim ∉ filterByThreshold (3/10) [candNoSim] :=
  (missing_similarity_excluded (3/10) (by norm_num)).1 [candNoSim] candNoSim rfl

theorem dictLookup_dictSet_self : ∀ (st : List (List Char × ρ)) (k : List Char) (v : ρ),
    dictLookup k (dictSet k v st) = some v := by
  intro st
  induction st with
  | nil => intro k v; simp [dictSet, dictLookup]
  | cons p st ih =>
    intro k v
    by_cases hp : p.1 = k
    · simp [dictSet, if_pos hp, dictLookup]
    · simp only [dictSet, if_neg hp, dictLookup]
      exact ih k v

theorem dictLookup_dictSet_ne : ∀ (st : List (List Char × ρ)) (k k2 : List Char) (v : ρ),
    k2 ≠ k → dictLookup k (dictSet k2 v st) = dictLookup k st := by
  intro st
  induction st with
  | nil => intro k k2 v h; simp [dictSet, dictLookup, if_neg h]
  | cons p st ih =>
    intro k k2 v h
    by_cases hp : p.1 = k2
    · simp only [dictSet, if_pos hp, dictLookup, if_neg h]
      rw [if_neg (by rw [← hp] at h; exact h)]
    · simp only [dictSet, if_neg hp, dictLookup]
      by_cases hk : p.1 = k
      · rw [if_pos hk, if_pos hk]
      · rw [if_neg hk, if_neg hk]
        exact ih k k2 v h

theorem dictLookup_dictAddScore_self : ∀ (st : List (List Char × (Cand × ℚ)))
    (k : List Char) (δ : ℚ),
    dictLookup k (dictAddScore k δ st) = (dictLookup k st).map (fun q => (q.1, q.2 + δ)) := by
  intro st
  induction st with
  | nil => intro k δ; simp [dictAddScore, dictLookup]
  | cons p st ih =>
    intro k δ
    by_cases hp : p.1 = k
    · simp [dictAddScore, if_pos hp, dictLookup]
    · simp only [dictAddScore, if_neg hp, dictLookup]
      exact ih k δ

theorem dictLookup_dictAddScore_ne : ∀ (st : List (List Char × (Cand × ℚ)))
    (k k2 : List Char) (δ : ℚ),
    k2 ≠ k → dictLookup k (dictAddScore k2 δ st) = dictLookup k st := by
  intro st
  induction st with
  | nil => intro k k2 δ h; simp [dictAddScore, dictLookup]
  | cons p st ih =>
    intro k k2 δ h
    by_cases hp : p.1 = k2
    · simp only [dictAddScore, if_pos hp, dictLookup]
      rw [if_neg (by rw [← hp] at h; exact h), if_neg (by rw [← hp] at h; exact h)]
    · simp only [dictAddScore, if_neg hp, dictLookup]
      by_cases hk : p.1 = k
      · rw [if_pos hk, if_pos hk]
      · rw [if_neg hk, if_neg hk]
        exact ih k k2 δ h

theorem dictLookup_append_singleton_ne (k k2 : List Char) (v : ρ) (h : k2 ≠ k) :
    ∀ (st : List (List Char × ρ)), dictLookup k (st ++ [(k2, v)]) = dictLookup k st := by
  intro st
  induction st with
  | nil => simp [dictLookup, if_neg h]
  | cons p st ih =>
    by_cases hk : p.1 = k
    · simp only [List.cons_append, dictLookup, if_pos hk]
    · simp only [List.cons_append, dictLookup, if_neg hk]
      exact ih

theorem dictLookup_append_singleton_self (k : List Char) (v : ρ) :
    ∀ (st : List (List Char × ρ)), dictLookup k st = none →
      dictLookup k (st ++ [(k, v)]) = some v := by
  intro st
  induction st with
  | nil => intro _; simp [dictLookup]
  | cons p st ih =>
    intro h
    by_cases hk : p.1 = k
    · simp only [dictLookup, if_pos hk] at h
      exact absurd h (by simp)
    · simp only [dictLookup, if_neg hk] at h
      simp only [List.cons_append, dictLookup, if_neg hk]
      exact ih h

theorem idxOf?_eq_none {p : α → Bool} : ∀ (l : List α),
    idxOf? p l = none ↔ ∀ a ∈ l, p a = false := by
  intro l
  induction l with
  | nil => simp [idxOf?]
  | cons a as ih =>
    by_cases hpa : p a
    · simp [idxOf?, hpa]
    · simp only [idxOf?, hpa, Bool.false_eq_true, if_false, Option.map_eq_none']
      constructor
      · intro h b hb
        rcases List.mem_cons.mp hb with hb | hb
        · rw [hb]; exact Bool.eq_false_iff.mpr hpa
        · exact (ih.mp h) b hb
      · intro h
        exact ih.mpr (fun b hb => h b (List.mem_cons_of_mem a hb))

theorem idxOf?_lt {p : α → Bool} : ∀ (l : List α) (i : Nat),
    idxOf? p l = some i → i < l.length := by
  intro l
  induction l with
  | nil => intro i h; simp [idxOf?] at h
  | cons a as ih =>
    intro i h
    by_cases hpa : p a
    · simp only [idxOf?, hpa, if_true, Option.some.injEq] at h
      rw [← h]
      simp
    · simp only [idxOf?, hpa, Bool.false_eq_true, if_false] at h
      rcases Option.map_eq_some'.mp h with ⟨j, hj, hij⟩
      rw [← hij]
      simpa using Nat.succ_lt_succ (ih j hj)

theorem semFoldLookup (wS : ℚ) (N : Nat) :
    ∀ (l : List Cand) (n : Nat) (st0 : List (List Char × (Cand × ℚ))) (id : List Char),
      (l.map Cand.id).Nodup → (∀ r ∈ l, dictLookup r.id st0 = none) →
      dictLookup id ((enumFrom n l).foldl (fun st p =>
          dictSet p.2.id (p.2, semScore wS N p.1) st) st0)
        = match idxOf? (fun x => x == id) (l.map Cand.id) with
          | some i => l[i]?.map (fun r => (r, semScore wS N (n + i)))
          | none => dictLookup id st0 := by
  intro l
  induction l with
  | nil =>
    intro n st0 id _ _
    simp [enumFrom, idxOf?]
  | cons r l ih =>
    intro n st0 id hnd hdisj
    have hnd0 : (r.id :: l.map Cand.id).Nodup := by
      rw [List.map_cons] at hnd
      exact hnd
    have hnd1 : r.id ∉ l.map Cand.id := (List.nodup_cons.mp hnd0).1
    have hnd2 : (l.map Cand.id).Nodup := (List.nodup_cons.mp hnd0).2
    have hdisj2 : ∀ s ∈ l, dictLookup s.id (dictSet r.id (r, semScore wS N n) st0) = none := by
      intro s hs
      have hne : r.id ≠ s.id := by
        intro he
        exact hnd1 (he ▸ List.mem_map_of_mem Cand.id hs)
      rw [dictLookup_dictSet_ne st0 s.id r.id (r, semScore wS N n) hne]
      exact hdisj s (List.mem_cons_of_mem r hs)
    simp only [enumFrom, List.foldl_cons]
    rw [ih (n + 1) (dictSet r.id (r, semScore wS N n) st0) id hnd2 hdisj2]
    by_cases hid : r.id = id
    · have hb : (r.id == id) = true := beq_iff_eq.mpr hid
      have hnone : idxOf? (fun x => x == id) (l.map Cand.id) = none := by
        rw [idxOf?_eq_none]
        intro a ha
        have hane : a ≠ id := by
          intro he
          exact hnd1 (hid ▸ he ▸ ha)
        simp [hane]
      simp only [List.map_cons, idxOf?, hb, if_true, hnone]
      rw [← hid, dictLookup_dictSet_self st0 r.id (r, semScore wS N n)]
      simp
    · have hb : (r.id == id) = false := by simp [hid]
      simp only [List.map_cons, idxOf?, hb, Bool.false_eq_true, if_false]
      cases hsub : idxOf? (fun x => x == id) (l.map Cand.id) with
      | none =>
        simp only [hsub, Option.map_none']
        exact dictLookup_dictSet_ne st0 id r.id (r, semScore wS N n) hid
      | some i =>
        simp only [hsub, Option.map_some']
        have harith : n + 1 + i = n + (i + 1) := by omega
        simp [harith]

theorem semanticPass_lookup (wS : ℚ) (sem : List Cand) (id : List Char)
    (hs : (sem.map Cand.id).Nodup) :
    dictLookup id (semanticPass wS sem)
      = match idxOf? (fun x => x == id) (sem.map Cand.id) with
        | some i => sem[i]?.map (fun r => (r, semScore wS sem.length i))
        | none => none := by
  unfold semanticPass
  rw [semFoldLookup wS sem.length sem 0 [] id hs (fun r _ => rfl)]
  cases hsub : idxOf? (fun x => x == id) (sem.map Cand.id) with
  | none => simp [dictLookup]
  | some i => simp

theorem kwFoldLookup (wK : ℚ) (kw : QueryReply) :
    ∀ (ids : List (List Char)) (n : Nat) (st0 : List (List Char × (Cand × ℚ)))
      (id : List Char), ids.Nodup →
      dictLookup id ((enumFrom n ids).foldl (fun st p =>
          match dictLookup p.2 st with
          | some _ => dictAddScore p.2 (kwScore wK kw p.1) st
          | none => st ++ [(p.2, (kwCand kw p.1 p.2, kwScore wK kw p.1))]) st0)
        = match idxOf? (fun x => x == id) ids with
          | some i =>
              match dictLookup id st0 with
              | some q => some (q.1, q.2 + kwScore wK kw (n + i))
              | none => some (kwCand kw (n + i) id, kwScore wK kw (n + i))
          | none => dictLookup id st0 := by
  intro ids
  induction ids with
  | nil =>
    intro n st0 id _
    simp [enumFrom, idxOf?]
  | cons d ids ih =>
    intro n st0 id hnd
    obtain ⟨hdnotin, hnd2⟩ := List.nodup_cons.mp hnd
    simp only [enumFrom, List.foldl_cons]
    rw [ih (n + 1) _ id hnd2]
    by_cases hid : d = id
    · subst hid
      have hb : (d == d) = true := by simp
      have hnone : idxOf? (fun x => x == d) ids = none := by
        rw [idxOf?_eq_none]
        intro a ha
        have hane : a ≠ d := fun he => hdnotin (he ▸ ha)
        simp [hane]
      simp only [idxOf?, hb, if_true, hnone]
      cases hl : dictLookup d st0 with
      | some q =>
        simp only [hl]
        rw [dictLookup_dictAddScore_self st0 d (kwScore wK kw n), hl]
        simp
      | none =>
        simp only [hl]
        rw [dictLookup_append_singleton_self d (kwCand kw n d, kwScore wK kw n) st0 hl]
        simp
    · have hb : (d == id) = false := by simp [hid]
      have hst1 : dictLookup id (match dictLookup d st0 with
          | some _ => dictAddScore d (kwScore wK kw n) st0
          | none => st0 ++ [(d, (kwCand kw n d, kwScore wK kw n))]) = dictLookup id st0 := by
        cases hl : dictLookup d st0 with
        | some q =>
          simp only [hl]
          exact dictLookup_dictAddScore_ne st0 id d (kwScore wK kw n) hid
        | none =>
          simp only [hl]
          exact dictLookup_append_singleton_ne id d (kwCand kw n d, kwScore wK kw n) hid st0
      rw [hst1]
      simp only [idxOf?, hb, Bool.false_eq_true, if_false]
      cases hsub : idxOf? (fun x => x == id) ids with
      | none => simp [hsub]
      | some i =>
        simp only [hsub, Option.map_some']
        have harith : n + 1 + i = n + (i + 1) := by omega
        cases hl2 : dictLookup id st0 with
        | some q => simp [hl2, harith]
        | none => simp [hl2, harith]

theorem keywordPass_lookup (wK : ℚ) (kw : QueryReply)
    (st0 : List (List Char × (Cand × ℚ))) (id : List Char) (hk : kw.ids.Nodup) :
    dictLookup id (keywordPass wK kw st0)
      = match idxOf? (fun x => x == id) kw.ids with
        | some i =>
            match dictLookup id st0 with
            | some q => some (q.1, q.2 + kwScore wK kw i)
            | none => some (kwCand kw i id, kwScore wK kw i)
        | none => dictLookup id st0 := by
  unfold keywordPass
  by_cases hids : kw.ids = []
  · rw [if_neg (by simp [hids])]
    rw [hids]
    simp [idxOf?]
  · rw [if_pos hids]
    rw [kwFoldLookup wK kw kw.ids 0 st0 id hk]
    cases hsub : idxOf? (fun x => x == id) kw.ids with
    | none => simp
    | some i =>
      cases hl : dictLookup id st0 with
      | some q => simp [hl]
      | none => simp [hl]

/-- C9: the fused score an id holds in `hybrid_search`'s `result_scores`
is exactly its rank-normalized score `1 - i/N` from the semantic list
times the semantic weight, plus its rank-normalized score from the
keyword list times the keyword weight — with contribution 0 from a list
that does not contain the id (so rank 0 contributes exactly the weight,
and a singleton list yields factor 1). -/
theorem hybrid_rank_normalization (wS wK : ℚ) (sem : List Cand) (kw : QueryReply)
    (hs : (sem.map Cand.id).Nodup) (hk : kw.ids.Nodup) (id : List Char) :
    scoreOf (hybridScores wS wK sem kw) id
      = rankScore (sem.map Cand.id) id * wS + rankScore kw.ids id * wK := by
  unfold scoreOf hybridScores
  rw [keywordPass_lookup wK kw (semanticPass wS sem) id hk]
  rw [semanticPass_lookup wS sem id hs]
  cases hs1 : idxOf? (fun x => x == id) (sem.map Cand.id) with
  | some i =>
    have hlt : i < sem.length := by simpa using idxOf?_lt (sem.map Cand.id) i hs1
    have hget : sem[i]? = some sem[i] := List.getElem?_eq_getElem hlt
    cases hs2 : idxOf? (fun x => x == id) kw.ids with
    | some j =>
      simp only [hget, Option.map_some']
      rw [rankScore, rankScore, hs1, hs2]
      simp only [semScore, kwScore, List.length_map]
    | none =>
      simp only [hget, Option.map_some']
      rw [rankScore, rankScore, hs1, hs2]
      simp only [semScore, kwScore, List.length_map]
      ring
  | none =>
    cases hs2 : idxOf? (fun x => x == id) kw.ids with
    | some j =>
      rw [rankScore, rankScore, hs1, hs2]
      simp only [semScore, kwScore, List.length_map]
      ring
    | none =>
      rw [rankScore, rankScore, hs1, hs2]
      ring

/-- A semantic candidate used by the C9 witness. -/
def candSemD : Cand :=
  { id := ("D").toList, text := ("W").toList, metadata := [],
    distance := some (1/5), similarity := some (4/5) }

/-- A keyword reply used by the C9 witness: ids D and E. -/
def kwReplyDE : QueryReply :=
  { ids := [("D").toList, ("E").toList],
    documents := [("W").toList, ("X").toList],
    metadatas := [[], []],
    distances := some [1/5, 2/5] }

/-- Witness for C9 at a concrete input: semantic list `[D]`, keyword ids
`[D, E]`. -/
theorem hybrid_rank_normalization_witness :
    scoreOf (hybridScores (7/10) (3/10) [candSemD] kwReplyDE) (("D").toList)
      = rankScore (([candSemD]).map Cand.id) (("D").toList) * (7/10)
        + rankScore kwReplyDE.ids (("D").toList) * (3/10) :=
  hybrid_rank_normalization (7/10) (3/10) [candSemD] kwReplyDE
    (by decide) (by decide) (("D").toList)

theorem dedupGo_first : ∀ (rs : List Cand) (seen : List (List Char)) (c : Cand),
    c ∈ dedupGo seen rs →
      fingerprint c ∉ seen ∧
      rs.find? (fun r => fingerprint r == fingerprint c) = some c := by
  intro rs
  induction rs with
  | nil => intro seen c h; simp [dedupGo] at h
  | cons r rs ih =>
    intro seen c h
    by_cases hm : fingerprint r ∈ seen
    · simp only [dedupGo, if_pos hm] at h
      obtain ⟨h1, h2⟩ := ih seen c h
      have hne : ¬ (fingerprint r == fingerprint c) = true := by
        simp only [beq_iff_eq]
        intro he
        exact h1 (he ▸ hm)
      exact ⟨h1, by rw [List.find?_cons_of_neg rs hne]; exact h2⟩
    · simp only [dedupGo, if_neg hm, List.mem_cons] at h
      rcases h with h | h
      · subst h
        exact ⟨hm, List.find?_cons_of_pos rs (by simp)⟩
      · obtain ⟨h1, h2⟩ := ih (fingerprint r :: seen) c h
        have hne2 : ¬ (fingerprint r == fingerprint c) = true := by
          simp only [beq_iff_eq]
          intro he
          exact h1 (by simp [he])
        have h1s : fingerprint c ∉ seen := fun hx => h1 (by simp [hx])
        exact ⟨h1s, by rw [List.find?_cons_of_neg rs hne2]; exact h2⟩

/-- C3 (amended): every candidate returned by `retrieve` is carried
verbatim from the first-seen instance of its 100-character text
fingerprint in the concatenated per-variant results — so its `similarity`
field is that of the first instance encountered, not of the
highest-scoring one (and keyword-only instances carry no `similarity` at
all). -/
theorem retrieve_first_instance (k : Nat) (τ wS wK : ℚ)
    (replies : List (QueryReply × QueryReply)) (c : Cand)
    (h : c ∈ retrieveWithExpansion k τ wS wK replies) :
    (allResults k wS wK replies).find? (fun r => fingerprint r == fingerprint c)
      = some c := by
  unfold retrieveWithExpansion at h
  have h1 := (mem_postProcess k τ (allResults k wS wK replies) c h).1
  exact (dedupGo_first (allResults k wS wK replies) [] c h1).2

/-- C1 (amended): across query variants there is no score fusion — every
candidate returned by `retrieve` is an unchanged element of a single
variant's `hybrid_search` output; the fused score computed inside
`hybrid_search` is discarded before the cross-variant merge, which only
concatenates, deduplicates by text prefix, filters and sorts by the
`similarity` field. -/
theorem retrieve_no_cross_variant_fusion (k : Nat) (τ wS wK : ℚ)
    (replies : List (QueryReply × QueryReply)) (c : Cand)
    (h : c ∈ retrieveWithExpansion k τ wS wK replies) :
    ∃ p ∈ replies, c ∈ hybridSearch k wS wK p.1 p.2 := by
  unfold retrieveWithExpansion at h
  have h1 := (mem_postProcess k τ (allResults k wS wK replies) c h).1
  have h2 : c ∈ allResults k wS wK replies :=
    dedupGo_subset (allResults k wS wK replies) [] c h1
  rw [allResults_eq_flatten] at h2
  rcases List.mem_flatten.mp h2 with ⟨L, hL, hcL⟩
  rcases List.mem_map.mp hL with ⟨p, hp, hpL⟩
  exact ⟨p, hp, hpL ▸ hcL⟩

/-- An external reply with no hits, used by counterexamples. -/
def emptyReply : QueryReply :=
  { ids := [], documents := [], metadatas := [], distances := none }

/-- A semantic reply for id `A` with distance 3/5 (similarity 2/5). -/
def replyLowSim : QueryReply :=
  { ids := [("A").toList], documents := [("T").toList], metadatas := [[]],
    distances := some [3/5] }

/-- A semantic reply for the same id `A` and the same text, with distance
1/10 (similarity 9/10). -/
def replyHighSim : QueryReply :=
  { ids := [("A").toList], documents := [("T").toList], metadatas := [[]],
    distances := some [1/10] }

/-- The candidate as formatted from `replyLowSim`. -/
def candLowSim : Cand :=
  { id := ("A").toList, text := ("T").toList, metadata := [],
    distance := some (3/5), similarity := some (2/5) }

/-- Counterexample to C3 as stated: the same id `A` is produced by two
query variants, with similarity 2/5 from variant 1 and 9/10 from variant
2; the highest-scoring instance has similarity 9/10, but `retrieve`
returns the candidate with similarity 2/5 — deduplication keeps the
first-seen instance, not the highest-scoring one. -/
theorem retrieve_similarity_not_highest_cex :
    retrieveWithExpansion 8 (3/10) (7/10) (3/10)
        [(replyLowSim, emptyReply), (replyHighSim, emptyReply)] = [candLowSim] ∧
    candLowSim.similarity = some (2/5) ∧
    (formatSearch replyHighSim).map (fun c => c.similarity) = [some (9/10)] ∧
    ((2 : ℚ)/5) ≠ (9 : ℚ)/10 := by
  refine ⟨?_, rfl, ?_, by norm_num⟩
  · norm_num [retrieveWithExpansion, postProcess, allResults, hybridSearch, hybridScores,
    semanticPass, keywordPass, semScore, kwScore, kwCand, formatSearch, enumFrom,
    dictSet, dictLookup, dictAddScore, sortByKeyDesc, insertByKeyDesc, simKey,
    filterByThreshold, deduplicateResults, dedupGo, fingerprint,
      replyLowSim, replyHighSim, emptyReply, candLowSim]
  · norm_num [formatSearch, enumFrom, replyHighSim]

/-- Witness for C3 (amended) at a concrete input. -/
theorem retrieve_first_instance_witness :
    (allResults 8 (7/10) (3/10) [(replyLowSim, emptyReply)]).find?
        (fun r => fingerprint r == fingerprint candLowSim) = some candLowSim :=
  retrieve_first_instance 8 (3/10) (7/10) (3/10) [(replyLowSim, emptyReply)]
    candLowSim (by
      norm_num [retrieveWithExpansion, postProcess, allResults, hybridSearch, hybridScores,
    semanticPass, keywordPass, semScore, kwScore, kwCand, formatSearch, enumFrom,
    dictSet, dictLookup, dictAddScore, sortByKeyDesc, insertByKeyDesc, simKey,
    filterByThreshold, deduplicateResults, dedupGo, fingerprint,
        replyLowSim, emptyReply, candLowSim])

/-- A semantic reply for id `B` with distance 3/10 (similarity 7/10). -/
def replyB : QueryReply :=
  { ids := [("B").toList], documents := [("U").toList], metadatas := [[]],
    distances := some [3/10] }

/-- The candidate as formatted from `replyB`. -/
def candB : Cand :=
  { id := ("B").toList, text := ("U").toList, metadata := [],
    distance := some (3/10), similarity := some (7/10) }

/-- Counterexample to C1 as stated: id `B` appears at rank 0 of the
semantic list of both query variants, so the spec's additive cross-variant
fused score is 7/10 + 7/10 = 7/5; but the candidate in `retrieve`'s
output carries no such score — its only score-bearing fields are
`similarity = 7/10` and `distance = 3/10`, neither equal to 7/5. -/
theorem no_cross_variant_fusion_cex :
    retrieveWithExpansion 8 (3/10) (7/10) (3/10)
        [(replyB, emptyReply), (replyB, emptyReply)] = [candB] ∧
    specCrossVariantScore (7/10) (3/10)
        [(replyB, emptyReply), (replyB, emptyReply)] (("B").toList) = 7/5 ∧
    candB.similarity = some (7/10) ∧
    candB.distance = some (3/10) ∧
    ((7 : ℚ)/10) ≠ (7 : ℚ)/5 ∧
    ((3 : ℚ)/10) ≠ (7 : ℚ)/5 := by
  refine ⟨?_, ?_, rfl, rfl, by norm_num, by norm_num⟩
  · norm_num [retrieveWithExpansion, postProcess, allResults, hybridSearch, hybridScores,
    semanticPass, keywordPass, semScore, kwScore, kwCand, formatSearch, enumFrom,
    dictSet, dictLookup, dictAddScore, sortByKeyDesc, insertByKeyDesc, simKey,
    filterByThreshold, deduplicateResults, dedupGo, fingerprint,
      replyB, emptyReply, candB]
  · norm_num [specCrossVariantScore, rankScore, idxOf?, formatSearch, enumFrom,
      replyB, emptyReply]

/-- Witness for C1 (amended) at a concrete input. -/
theorem retrieve_no_cross_variant_fusion_witness :
    ∃ p ∈ [(replyB, emptyReply)], candB ∈ hybridSearch 8 (7/10) (3/10) p.1 p.2 :=
  retrieve_no_cross_variant_fusion 8 (3/10) (7/10) (3/10) [(replyB, emptyReply)]
    candB (by
      norm_num [retrieveWithExpansion, postProcess, allResults, hybridSearch, hybridScores,
    semanticPass, keywordPass, semScore, kwScore, kwCand, formatSearch, enumFrom,
    dictSet, dictLookup, dictAddScore, sortByKeyDesc, insertByKeyDesc, simKey,
    filterByThreshold, deduplicateResults, dedupGo, fingerprint,
        replyB, emptyReply, candB])

theorem gatherResults_error :
    ∀ (outcomes : List (Except ε (List Cand))) (e : ε), Except.error e ∈ outcomes →
      ∃ e2, gatherResults outcomes = Except.error e2 := by
  intro outcomes
  induction outcomes with
  | nil => intro e he; simp at he
  | cons o rest ih =>
    intro e he
    cases o with
    | error e0 => exact ⟨e0, rfl⟩
    | ok l =>
      have hmem : Except.error e ∈ rest := by
        rcases List.mem_cons.mp he with h | h
        · exact absurd h (by simp)
        · exact h
      rcases ih e hmem with ⟨e2, h2⟩
      refine ⟨e2, ?_⟩
      show (match gatherResults rest with
        | Except.error e => Except.error e
        | Except.ok ls => Except.ok (l ++ ls)) = Except.error e2
      rw [h2]

theorem gatherResults_ok : ∀ (lists : List (List Cand)),
    gatherResults (ε := ε) (lists.map Except.ok) = Except.ok lists.flatten := by
  intro lists
  induction lists with
  | nil => rfl
  | cons l rest ih =>
    show (match gatherResults (ε := ε) (rest.map Except.ok) with
      | Except.error e => Except.error e
      | Except.ok ls => Except.ok (l ++ ls)) = Except.ok (l :: rest).flatten
    rw [ih]
    rfl

/-- C2 (amended): the variant loop of `retrieve_with_expansion` has no
per-variant error isolation — if any variant's search raises, the first
such error propagates out of `retrieve` and no results are returned; only
when every variant's search succeeds does `retrieve` return the merged,
deduplicated, threshold-filtered, similarity-sorted top-k results. -/
theorem retrieve_error_aborts {ε : Type} (k : Nat) (τ : ℚ) :
    (∀ (outcomes : List (Except ε (List Cand))) (e : ε), Except.error e ∈ outcomes →
        ∃ e2, retrieveFromOutcomes k τ outcomes = Except.error e2) ∧
    (∀ (lists : List (List Cand)),
        retrieveFromOutcomes k τ (lists.map Except.ok : List (Except ε (List Cand)))
          = Except.ok (postProcess k τ lists.flatten)) := by
  constructor
  · intro outcomes e he
    rcases gatherResults_error outcomes e he with ⟨e2, h2⟩
    refine ⟨e2, ?_⟩
    unfold retrieveFromOutcomes
    rw [h2]
  · intro lists
    unfold retrieveFromOutcomes
    rw [gatherResults_ok]

/-- A successfully retrieved candidate used by the C2 counterexample. -/
def candOkVariant : Cand :=
  { id := ("C").toList, text := ("V").toList, metadata := [],
    distance := some (1/2), similarity := some (1/2) }

/-- Counterexample to C2 as stated: with two variants — the first
succeeding with one candidate, the second raising — `retrieve` propagates
the error instead of returning the merged, deduplicated, filtered results
of the remaining variant. -/
theorem variant_error_aborts_retrieve_cex :
    retrieveFromOutcomes (ε := Unit) 8 (3/10)
        [Except.ok [candOkVariant], Except.error ()] = Except.error () ∧
    retrieveFromOutcomes (ε := Unit) 8 (3/10)
        [Except.ok [candOkVariant], Except.error ()]
      ≠ Except.ok (postProcess 8 (3/10) [candOkVariant]) := by
  constructor
  · rfl
  · intro hcon
    rw [show retrieveFromOutcomes (ε := Unit) 8 (3/10)
        [Except.ok [candOkVariant], Except.error ()] = Except.error () from rfl] at hcon
    exact Except.noConfusion hcon

/-- Witness for C2 (amended) at a concrete input. -/
theorem retrieve_error_aborts_witness :
    ∃ e2, retrieveFromOutcomes (ε := Unit) 8 (3/10) [Except.error ()]
      = Except.error e2 :=
  (retrieve_error_aborts 8 (3/10)).1 [Except.error ()] () (by simp)

end DocAI
